import Mathlib

/-!
Verification of the Hive navigation engine (src/core/hive.ts).

The engine is embedded shallowly: JavaScript values become the inductive
`Value` (JS numbers are modelled as rationals; the engine only adds and
multiplies small non-negative scores, where IEEE floats and rationals agree
on sign and order), fallible I/O becomes explicit parameters (an
`appendOk : Bool` flag for the journey-log append, the store as a list of
hexes), and each engine operation becomes a pure function on an explicit
`HiveState`.
-/

namespace Hive

/-- A JavaScript runtime value as the engine sees it: JSON data plus
`undefined` for absent fields.  Numbers are rationals. -/
inductive Value where
  | vundefined : Value
  | vnull : Value
  | vbool (b : Bool) : Value
  | vnum (q : ℚ) : Value
  | vstr (s : String) : Value
  | varr (elems : List Value) : Value
  | vobj (fields : List (String × Value)) : Value

/-- JS truthiness (`if (x)`): `undefined`, `null`, `false`, `0`, and the
empty string are falsy; every array and object is truthy. -/
def truthy : Value → Bool
  | .vundefined => false
  | .vnull => false
  | .vbool b => b
  | .vnum q => !(q == 0)
  | .vstr s => !(s == "")
  | .varr _ => true
  | .vobj _ => true

/-- JS `typeof x === "object"`: true for `null`, arrays and objects. -/
def isObjectType : Value → Bool
  | .vnull => true
  | .varr _ => true
  | .vobj _ => true
  | _ => false

/-- Does the association list carry the key? -/
def hasKey (fields : List (String × Value)) (key : String) : Bool :=
  fields.any (fun kv => kv.1 == key)

/-- Value at a key, `undefined` when absent (first entry wins, as in a JS
object, whose keys are unique). -/
def getKeyD (fields : List (String × Value)) (key : String) : Value :=
  match fields.find? (fun kv => kv.1 == key) with
  | some kv => kv.2
  | none => .vundefined

/-- JS property assignment `o[k] = v`: overwrite in place when the key
exists (its position is kept), append otherwise. -/
def setKey (fields : List (String × Value)) (key : String) (v : Value) :
    List (String × Value) :=
  if hasKey fields key then
    fields.map (fun kv => if kv.1 == key then (key, v) else kv)
  else fields ++ [(key, v)]

/-- JS `delete o[k]`. -/
def delKey (fields : List (String × Value)) (key : String) :
    List (String × Value) :=
  fields.filter (fun kv => !(kv.1 == key))

/-- The own enumerable entries a value contributes under object spread
`{...x}`: an object yields its fields, an array or string its indexed
elements, anything else nothing. -/
def spreadEntries : Value → List (String × Value)
  | .vobj fields => fields
  | .varr elems => elems.enum.map (fun p => (toString p.1, p.2))
  | .vstr s => s.data.enum.map (fun p => (toString p.1, Value.vstr (String.mk [p.2])))
  | _ => []

/-- Assign every entry into the base object in order (`Object.assign` /
the tail of an object spread). -/
def objAssign (base entries : List (String × Value)) : List (String × Value) :=
  entries.foldl (fun acc kv => setKey acc kv.1 kv.2) base

/-- JS `Object.keys`, for the values the engine can reach (a truthy
payload): field names of an object, index strings of an array or string,
nothing for other primitives. -/
def objectKeys : Value → List String
  | .vobj fields => fields.map Prod.fst
  | .varr elems => (List.range elems.length).map toString
  | .vstr s => (List.range s.length).map toString
  | _ => []

/-- JS strict equality `===` on the values compared by the engine.  On
objects and arrays `===` is reference equality; the engine only ever
compares a stored condition value with a separately supplied payload
value, which are distinct allocations, so those compare unequal. -/
def jsStrictEq : Value → Value → Bool
  | .vundefined, .vundefined => true
  | .vnull, .vnull => true
  | .vbool a, .vbool b => a == b
  | .vnum a, .vnum b => a == b
  | .vstr a, .vstr b => a == b
  | _, _ => false

/-- JS property read `payload[key]` for the payload shapes the engine can
reach: object field, canonical array index, canonical string index,
`undefined` otherwise. -/
def valueGet : Value → String → Value
  | .vobj fields, key => getKeyD fields key
  | .varr elems, key =>
    (match key.toNat? with
     | some n => if toString n == key then (elems.get? n).getD .vundefined else .vundefined
     | none => .vundefined)
  | .vstr s, key =>
    (match key.toNat? with
     | some n =>
       if toString n == key then
         ((s.data.get? n).map (fun c => Value.vstr (String.mk [c]))).getD .vundefined
       else .vundefined
     | none => .vundefined)
  | _, _ => .vundefined

/-- JS `s.startsWith(pre)`: `pre` is a prefix of `s` (stated on the
character list, which computes). -/
def strStartsWith (s pre : String) : Bool :=
  pre.data.isPrefixOf s.data

/-- Characters kept by tokenize: the class `[a-z0-9]` of the source's
regular expression. -/
def isTokenChar (c : Char) : Bool :=
  (('a' ≤ c) && (c ≤ 'z')) || (('0' ≤ c) && (c ≤ '9'))

/-- Whitespace, the `\s` of the source's regular expressions (the common
ASCII members; the engine's inputs are ASCII text). -/
def isSpaceLike (c : Char) : Bool :=
  c == ' ' || c == '\t' || c == '\n' || c == '\r'

/-- Split on single whitespace characters, keeping empty pieces.  The
source splits on whitespace runs; the two differ only in empty pieces,
which the length filter of `tokenize` drops either way. -/
def splitOnSpace (cs : List Char) : List (List Char) :=
  cs.foldr
    (fun c acc =>
      if isSpaceLike c then [] :: acc
      else
        match acc with
        | [] => [[c]]
        | w :: ws => (c :: w) :: ws)
    []

/-- `Hive.tokenize`: lowercase, strip everything outside `[a-z0-9\s]`,
split on whitespace and drop tokens of length at most 2. -/
def tokenize (text : String) : List String :=
  let cleaned := (text.data.map Char.toLower).filter
    (fun c => isTokenChar c || isSpaceLike c)
  ((splitOnSpace cleaned).map String.mk).filter (fun w => w.length > 2)

/-- The `CONCEPT_MAP` synonym table, verbatim from the source. -/
def CONCEPT_MAP : List (String × List String) := [
  ("button", ["interactive", "form", "click", "input", "ui", "element"]),
  ("deploy", ["ship", "ops", "launch", "release", "production", "ci", "cd"]),
  ("database", ["schema", "data", "table", "model", "prisma", "sql"]),
  ("style", ["css", "design", "theme", "color", "token", "tailwind"]),
  ("auth", ["login", "signup", "session", "permission", "security", "authentication"]),
  ("test", ["qa", "quality", "check", "audit", "verify", "testing"]),
  ("api", ["backend", "server", "endpoint", "route", "action", "rest"]),
  ("layout", ["spacing", "grid", "responsive", "breakpoint", "flex", "gap"]),
  ("text", ["typography", "font", "heading", "copy", "writing"]),
  ("image", ["performance", "optimization", "loading", "asset", "media"]),
  ("error", ["handling", "validation", "message", "boundary", "catch"]),
  ("form", ["input", "validation", "field", "submit", "interactive"]),
  ("component", ["ui", "element", "widget", "block", "module"]),
  ("animation", ["motion", "transition", "hover", "easing", "duration"]),
  ("color", ["theme", "palette", "token", "dark", "light", "mode"]),
  ("accessibility", ["a11y", "wcag", "aria", "screen", "reader", "keyboard", "focus"]),
  ("seo", ["search", "meta", "og", "social", "crawl", "sitemap"]),
  ("setup", ["scaffold", "init", "initialize", "new", "project", "start"]),
  ("code", ["typescript", "react", "standards", "patterns", "naming"]),
  ("copy", ["writing", "ux", "microcopy", "label", "message", "voice"])]

/-- `CONCEPT_MAP[word]` (keys of the table are unique, so first match). -/
def lookupConcept (word : String) : Option (List String) :=
  (CONCEPT_MAP.find? (fun kv => kv.1 == word)).map (fun kv => kv.2)

/-- Add a word to the expansion set (a JS `Set` keeps insertion order and
ignores duplicates). -/
def addWord (acc : List String) (w : String) : List String :=
  if acc.contains w then acc else acc ++ [w]

/-- Add each word of a list to the expansion set, in order. -/
def addWords (acc : List String) (ws : List String) : List String :=
  ws.foldl addWord acc

/-- One iteration of the expansion loop of `expandWithSynonyms`: if the
word is a key, add its synonyms; for every table entry whose synonym set
holds the word, add the key and the whole set. -/
def expandStep (acc : List String) (word : String) : List String :=
  let acc1 :=
    match lookupConcept word with
    | some syns => addWords acc syns
    | none => acc
  CONCEPT_MAP.foldl
    (fun a kv => if kv.2.contains word then addWords (addWord a kv.1) kv.2 else a)
    acc1

/-- `Hive.expandWithSynonyms`: seed the set with the words themselves,
then run the expansion loop over the original words. -/
def expandWithSynonyms (words : List String) : List String :=
  words.foldl expandStep (words.foldl addWord [])

/-- `Hive.wordOverlap`: how many entries of `a` occur in `b`. -/
def wordOverlap (a b : List String) : Nat :=
  (a.filter (fun w => b.contains w)).length

/-- Hex kinds; purely descriptive. -/
inductive HexType where
  | data | tool | gateway | junction

/-- Opaque hex contents.  The engine only reads and merges `data`;
`refs` and `tools` are carried untouched (`tools` entries are validated
as unknown values by the store schema). -/
structure HexContents where
  data : Value := .vundefined
  refs : Option (List String) := none
  tools : Option (List Value) := none

/-- An edge guard.  The TS field `match` is a Lean keyword and is named
`matchv` here. -/
structure EdgeCondition where
  intent : Option String := none
  hasData : Option (List String) := none
  lacks : Option (List String) := none
  matchv : Option (List (String × Value)) := none
  always : Option Bool := none

/-- A declarative payload transform.  The TS field `omit` is a Lean
command keyword and is named `omitv` here. -/
structure EdgeTransform where
  pick : Option (List String) := none
  omitv : Option (List String) := none
  inject : Option (List (String × Value)) := none
  rename : Option (List (String × String)) := none

/-- A directed conditional edge.  The TS field `to` is reserved by a
Mathlib tactic and is named `tov` here. -/
structure Edge where
  id : String
  tov : String
  when : EdgeCondition
  transform : Option EdgeTransform := none
  priority : ℚ
  description : String

/-- A node of the graph. -/
structure Hex where
  id : String
  name : String
  type : HexType
  contents : HexContents
  entryHints : List String
  edges : List Edge
  tags : List String
  description : Option String := none
  created : String
  updated : String

/-- The caller-supplied agent context. -/
structure AgentContext where
  intent : Option String := none
  payload : Value := .vundefined
  visited : Option (List String) := none
  origin : Option String := none
  depth : Option ℚ := none

/-- One ranked answer of `query`. -/
structure QueryResult where
  hex : Hex
  score : ℚ
  matchedHints : List String

/-- The result of `traverse`.  Fields the source leaves off a result
literal are `undefined` / `none` here. -/
structure TraversalResult where
  success : Bool
  destination : String
  payload : Value := .vundefined
  external : Option Bool := none
  error : Option String := none

/-- Journey step kinds. -/
inductive StepAction where
  | enter | exit | deposit | query

/-- One audit record. -/
structure JourneyStep where
  hexId : String
  action : StepAction
  timestamp : String
  payload : Value := .vundefined
  edgeId : Option String := none

/-- The in-memory per-agent journey. -/
structure Journey where
  id : String
  agentId : String
  started : String
  ended : Option String := none
  steps : List JourneyStep
  status : String

/-- One line of the durable journey log: the step plus its resolved
journey id (`{...step, journeyId}`). -/
structure LogEntry where
  step : JourneyStep
  journeyId : String

/-- The observable state of a `Hive` instance: the node store, the
in-memory journey map (insertion-ordered, as a JS `Map`), and the durable
append-only journey log. -/
structure HiveState where
  store : List Hex
  journeys : List (String × Journey)
  journeyLog : List LogEntry

/-- JS truthiness of an optional string: present and nonempty. -/
def strOptTruthy : Option String → Bool
  | some s => !(s == "")
  | none => false

/-- `Hive.evaluateCondition`.  Each clause contributes only when both the
clause and its relevant input are (truthily) present; the source
short-circuits on the first failing clause, which equals the conjunction
of the four clause outcomes. -/
def evaluateCondition (condition : EdgeCondition) (context : AgentContext) : Bool :=
  if condition.always.getD false then true
  else
    let intentOk :=
      if strOptTruthy condition.intent && strOptTruthy context.intent then
        wordOverlap (expandWithSynonyms (tokenize (condition.intent.getD (""))))
          (expandWithSynonyms (tokenize (context.intent.getD ("")))) != 0
      else true
    let payloadKeys := objectKeys context.payload
    let hasDataOk :=
      if condition.hasData.isSome && truthy context.payload then
        (condition.hasData.getD []).all (fun key => payloadKeys.contains key)
      else true
    let lacksOk :=
      if condition.lacks.isSome && truthy context.payload then
        (condition.lacks.getD []).any (fun key => !payloadKeys.contains key)
      else true
    let matchOk :=
      if condition.matchv.isSome && truthy context.payload then
        (condition.matchv.getD []).all
          (fun kv => jsStrictEq (valueGet context.payload kv.1) kv.2)
      else true
    intentOk && hasDataOk && lacksOk && matchOk

/-- The `pick` block of `applyTransform`: build a fresh object holding,
in `pick` order, the listed keys present in the result so far. -/
def pickStage (result : List (String × Value)) : Option (List String) →
    List (String × Value)
  | some keys =>
    keys.foldl
      (fun picked key =>
        if hasKey result key then setKey picked key (getKeyD result key) else picked)
      []
  | none => result

/-- The `omit` block of `applyTransform`: delete each listed key. -/
def omitStage (result : List (String × Value)) : Option (List String) →
    List (String × Value)
  | some keys => keys.foldl delKey result
  | none => result

/-- The `rename` block of `applyTransform`: for each `from → to` pair
whose source key is present, write the value at the new key and delete
the old one. -/
def renameStage (result : List (String × Value)) :
    Option (List (String × String)) → List (String × Value)
  | some pairs =>
    pairs.foldl
      (fun acc p =>
        if hasKey acc p.1 then delKey (setKey acc p.2 (getKeyD acc p.1)) p.1 else acc)
      result
  | none => result

/-- The `inject` block of `applyTransform`: shallow-merge the fixed
entries over the result (`{...result, ...inject}`). -/
def injectStage (result : List (String × Value)) :
    Option (List (String × Value)) → List (String × Value)
  | some entries => objAssign result entries
  | none => result

/-- `Hive.applyTransform`: a falsy or non-object payload passes through
unchanged; otherwise the payload is copied (`{...payload}`) and the four
blocks run in the source's order, each skipped when its field is absent. -/
def applyTransform (payload : Value) (transform : EdgeTransform) : Value :=
  if !(truthy payload) || !(isObjectType payload) then payload
  else
    .vobj
      (injectStage
        (renameStage
          (omitStage
            (pickStage (objAssign [] (spreadEntries payload)) transform.pick)
            transform.omitv)
          transform.rename)
        transform.inject)

/-- The merge policy of `Hive.deposit` on the node's current
`contents.data`: concatenate when both are arrays; otherwise, when both
have JS type object (which includes `null` and arrays), object-spread
merge `{...existing, ...incoming}`; otherwise replace wholesale. -/
def depositMerge (existingData incoming : Value) : Value :=
  match existingData, incoming with
  | .varr xs, .varr ys => .varr (xs ++ ys)
  | e, i =>
    if isObjectType e && isObjectType i then
      .vobj (objAssign (objAssign [] (spreadEntries e)) (spreadEntries i))
    else i

/-- The node store read: each hex is its own record keyed by id. -/
def findHex (store : List Hex) (id : String) : Option Hex :=
  store.find? (fun h => h.id == id)

/-- The node store upsert: full overwrite of the record with that id. -/
def saveHex (store : List Hex) (hex : Hex) : List Hex :=
  if store.any (fun h => h.id == hex.id) then
    store.map (fun h => if h.id == hex.id then hex else h)
  else store ++ [hex]

/-- `Hive.logStep`: resolve the journey id (a falsy `origin` becomes
`anonymous`), upsert the in-memory journey and append the step to it,
then try to append `{...step, journeyId}` to the durable log —
`appendOk = false` is the case where that write fails and the error is
swallowed. -/
def logStep (appendOk : Bool) (now : String) (context : AgentContext)
    (step : JourneyStep) (s : HiveState) : HiveState :=
  let journeyId :=
    match context.origin with
    | some o => if o == "" then ("anonymous") else o
    | none => "anonymous"
  let base :=
    if s.journeys.any (fun kv => kv.1 == journeyId) then s.journeys
    else
      s.journeys ++
        [(journeyId,
          { id := journeyId, agentId := journeyId, started := now,
            ended := none, steps := [], status := "active" })]
  let journeys := base.map
    (fun kv =>
      if kv.1 == journeyId then (kv.1, { kv.2 with steps := kv.2.steps ++ [step] })
      else kv)
  let s1 := { s with journeys := journeys }
  if appendOk then { s1 with journeyLog := s1.journeyLog ++ [⟨step, journeyId⟩] } else s1

/-- `Hive.enter`: read the hex; when it exists and a context was given,
record an `enter` step.  Returns the hex (or `none`) with the new state. -/
def enterS (appendOk : Bool) (now : String) (hexId : String)
    (context : Option AgentContext) (s : HiveState) : Option Hex × HiveState :=
  match findHex s.store hexId, context with
  | some hex, some ctx =>
    (some hex,
      logStep appendOk now ctx
        { hexId := hexId, action := .enter, timestamp := now, payload := ctx.payload } s)
  | found, _ => (found, s)

/-- `Hive.traverse`: load the source hex, locate the edge, re-check its
guard, transform the payload when the edge declares a transform, record
an `exit` step, and classify `external:` destinations. -/
def traverseS (appendOk : Bool) (now : String) (fromHexId edgeId : String)
    (context : AgentContext) (s : HiveState) : TraversalResult × HiveState :=
  match findHex s.store fromHexId with
  | none =>
    ({ success := false, destination := "", error := some ("Source hex not found") }, s)
  | some hex =>
    match hex.edges.find? (fun e => e.id == edgeId) with
    | none =>
      ({ success := false, destination := "", error := some ("Edge not found") }, s)
    | some edge =>
      if !evaluateCondition edge.when context then
        ({ success := false, destination := edge.tov,
           error := some ("Edge condition not met") }, s)
      else
        let payload :=
          match edge.transform with
          | some t => applyTransform context.payload t
          | none => context.payload
        let s1 := logStep appendOk now context
          { hexId := fromHexId, action := .exit, timestamp := now,
            payload := payload, edgeId := some edgeId } s
        ({ success := true, destination := edge.tov, payload := payload,
           external := some (strStartsWith edge.tov ("external:")) }, s1)

/-- `Hive.deposit`: `false` when the node is absent; otherwise merge the
incoming data into `contents.data`, stamp `updated`, persist, and record
a `deposit` step when a context was supplied. -/
def depositS (appendOk : Bool) (now : String) (hexId : String) (data : Value)
    (context : Option AgentContext) (s : HiveState) : Bool × HiveState :=
  match findHex s.store hexId with
  | none => (false, s)
  | some hex =>
    let hex1 :=
      { hex with
        contents := { hex.contents with data := depositMerge hex.contents.data data },
        updated := now }
    let s1 := { s with store := saveHex s.store hex1 }
    match context with
    | some ctx =>
      (true,
        logStep appendOk now ctx
          { hexId := hexId, action := .deposit, timestamp := now, payload := data } s1)
    | none => (true, s1)

/-- Accumulate matched entry hints and the hint score of one hex. -/
def hintScan (expandedIntent : List String) (hints : List String) :
    List String × Nat :=
  hints.foldl
    (fun acc hint =>
      let overlap := wordOverlap expandedIntent (expandWithSynonyms (tokenize hint))
      if overlap > 0 then (acc.1 ++ [hint], acc.2 + overlap) else acc)
    ([], 0)

/-- The score `Hive.query` gives one hex, with its matched hints: 1 point
per nonzero-overlap entry hint, 0.5 per name-overlap word, 0.3 per
description-overlap word when a (truthy) description exists, 0.5 per tag
literally contained in the expanded intent. -/
def scoreHex (expandedIntent : List String) (hex : Hex) : ℚ × List String :=
  let hints := hintScan expandedIntent hex.entryHints
  let nameOverlap := wordOverlap expandedIntent (expandWithSynonyms (tokenize hex.name))
  let s1 : ℚ := (hints.2 : ℚ) + (nameOverlap : ℚ) * (1 / 2)
  let s2 : ℚ :=
    if strOptTruthy hex.description then
      s1 +
        (wordOverlap expandedIntent
            (expandWithSynonyms (tokenize (hex.description.getD ("")))) : ℚ) * (3 / 10)
    else s1
  let tagHits := (hex.tags.filter (fun tag => expandedIntent.contains tag.toLower)).length
  (s2 + (tagHits : ℚ) * (1 / 2), hints.1)

/-- The sort order of `query` results: descending score.  The source
sorts with the comparator `b.score - a.score`. -/
def scoreRel (a b : QueryResult) : Prop := b.score ≤ a.score

instance : DecidableRel scoreRel := fun a b =>
  inferInstanceAs (Decidable (b.score ≤ a.score))

instance : IsTotal QueryResult scoreRel := ⟨fun a b => le_total b.score a.score⟩

instance : IsTrans QueryResult scoreRel := ⟨fun _ _ _ h1 h2 => le_trans h2 h1⟩

/-- `Hive.query`: score every hex, keep the strictly positive scores,
sort by descending score (stably — `Array.prototype.sort` is stable, as
is `List.insertionSort`) and truncate to `limit` (default 5). -/
def query (hexes : List Hex) (intent : String) (limit : Nat := 5) :
    List QueryResult :=
  let expandedIntent := expandWithSynonyms (tokenize intent)
  let results := hexes.filterMap
    (fun hex =>
      let sc := scoreHex expandedIntent hex
      if 0 < sc.1 then some ⟨hex, sc.1, sc.2⟩ else none)
  (List.insertionSort scoreRel results).take limit

/-- `Hive.getJourneyLog`: `file` is the parsed content of the journey
log, `none` when the file is missing or unreadable (the source's catch
then returns `[]`).  The source takes `steps.slice(-limit)`; for
`limit = 0` the JS index `-0` is `0`, so the whole list is returned. -/
def getJourneyLog (file : Option (List LogEntry)) (limit : Nat := 100) :
    List LogEntry :=
  match file with
  | none => []
  | some steps => if limit == 0 then steps else steps.drop (steps.length - limit)

/-! ## The exception-aware embedding

`CONCEPT_MAP` is a plain JS object literal, so the property read
`CONCEPT_MAP[word]` climbs the prototype chain: for `word` naming an
`Object.prototype` property the read yields that inherited value, which
is truthy and not iterable, and `for (const synonym of CONCEPT_MAP[word])`
raises a TypeError.  The definitions above model only the non-throwing
fragment; the `...E` definitions below carry the exception in `Except`
and agree with the pure ones whenever they return. -/

/-- The one way the engine can raise: the TypeError from `for...of` over
a non-iterable inherited property value. -/
inductive JsError where
  | typeError

/-- The own property names of `Object.prototype`, the values a property
read on a plain object literal can reach beyond the literal's own keys.
Each holds a truthy, non-iterable value (a built-in function, or
`Object.prototype` itself for `__proto__`). -/
def objectProtoNames : List String :=
  ["constructor", "hasOwnProperty", "isPrototypeOf", "propertyIsEnumerable",
   "toLocaleString", "toString", "valueOf", "__defineGetter__",
   "__defineSetter__", "__lookupGetter__", "__lookupSetter__", "__proto__"]

/-- What the JS property read `CONCEPT_MAP[word]` yields: an own key's
synonym list (own properties shadow inherited ones); a truthy,
non-iterable inherited value for an `Object.prototype` name; `undefined`
(falsy) otherwise. -/
inductive ConceptLookup where
  | syns (ws : List String)
  | protoValue
  | absent

/-- The faithful `CONCEPT_MAP[word]`, prototype chain included. -/
def lookupConceptJS (word : String) : ConceptLookup :=
  match CONCEPT_MAP.find? (fun kv => kv.1 == word) with
  | some kv => .syns kv.2
  | none => if objectProtoNames.contains word then .protoValue else .absent

/-- One iteration of the expansion loop, exception-aware: a truthy
`CONCEPT_MAP[word]` is iterated with `for...of`, which throws when the
word reached an inherited non-iterable value; otherwise the key branch
and the synonym-set scan run as in `expandStep`. -/
def expandStepE (acc : List String) (word : String) :
    Except JsError (List String) :=
  match lookupConceptJS word with
  | .protoValue => .error .typeError
  | .syns syns =>
    .ok (CONCEPT_MAP.foldl
      (fun a kv => if kv.2.contains word then addWords (addWord a kv.1) kv.2 else a)
      (addWords acc syns))
  | .absent =>
    .ok (CONCEPT_MAP.foldl
      (fun a kv => if kv.2.contains word then addWords (addWord a kv.1) kv.2 else a)
      acc)

/-- Exception-aware `Hive.expandWithSynonyms`: the loop stops at the
first throwing word. -/
def expandWithSynonymsE (words : List String) : Except JsError (List String) :=
  words.foldlM expandStepE (words.foldl addWord [])

/-- Exception-aware `Hive.evaluateCondition`: only the intent clause can
throw (both intent texts are expanded); the payload clauses never do. -/
def evaluateConditionE (condition : EdgeCondition) (context : AgentContext) :
    Except JsError Bool :=
  if condition.always.getD false then .ok true
  else do
    let intentOk ←
      if strOptTruthy condition.intent && strOptTruthy context.intent then do
        let ec ← expandWithSynonymsE (tokenize (condition.intent.getD ("")))
        let ei ← expandWithSynonymsE (tokenize (context.intent.getD ("")))
        pure (wordOverlap ec ei != 0)
      else pure true
    let payloadKeys := objectKeys context.payload
    let hasDataOk :=
      if condition.hasData.isSome && truthy context.payload then
        (condition.hasData.getD []).all (fun key => payloadKeys.contains key)
      else true
    let lacksOk :=
      if condition.lacks.isSome && truthy context.payload then
        (condition.lacks.getD []).any (fun key => !payloadKeys.contains key)
      else true
    let matchOk :=
      if condition.matchv.isSome && truthy context.payload then
        (condition.matchv.getD []).all
          (fun kv => jsStrictEq (valueGet context.payload kv.1) kv.2)
      else true
    pure (intentOk && hasDataOk && lacksOk && matchOk)

/-- Exception-aware `Hive.traverse`: the node and edge lookups and the
three structured results are as in `traverseS`, but the guard re-check
can raise, and the TypeError then propagates out of the call. -/
def traverseE (appendOk : Bool) (now : String) (fromHexId edgeId : String)
    (context : AgentContext) (s : HiveState) :
    Except JsError (TraversalResult × HiveState) :=
  match findHex s.store fromHexId with
  | none =>
    .ok ({ success := false, destination := "",
           error := some ("Source hex not found") }, s)
  | some hex =>
    match hex.edges.find? (fun e => e.id == edgeId) with
    | none =>
      .ok ({ success := false, destination := "",
             error := some ("Edge not found") }, s)
    | some edge => do
      let cond ← evaluateConditionE edge.when context
      if !cond then
        .ok ({ success := false, destination := edge.tov,
               error := some ("Edge condition not met") }, s)
      else
        let payload :=
          match edge.transform with
          | some t => applyTransform context.payload t
          | none => context.payload
        let s1 := logStep appendOk now context
          { hexId := fromHexId, action := .exit, timestamp := now,
            payload := payload, edgeId := some edgeId } s
        .ok ({ success := true, destination := edge.tov, payload := payload,
               external := some (strStartsWith edge.tov ("external:")) }, s1)

/-! ## Concrete fixtures -/

/-- A hex whose entry hint contains the word `interactive`. -/
def buttonHex : Hex :=
  { id := "button-hex", name := "x", type := .data, contents := {},
    entryHints := ["interactive elements"], edges := [], tags := [],
    created := "t0", updated := "t0" }

/-- Evaluating `query` on the fixture: `button` expands through the
synonym table and overlaps the hint `interactive elements` in 7 words. -/
theorem queryButton_eval :
    query [buttonHex] ("button") 5 =
      [⟨buttonHex, 7, [("interactive elements")]⟩] := by
  have hs : scoreHex (expandWithSynonyms (tokenize ("button"))) buttonHex =
      (7, [("interactive elements")]) := by
    have h7 : wordOverlap (expandWithSynonyms (tokenize ("button")))
        (expandWithSynonyms (tokenize ("interactive elements"))) = 7 := by decide
    have h0 : wordOverlap (expandWithSynonyms (tokenize ("button")))
        (expandWithSynonyms (tokenize ("x"))) = 0 := by decide
    simp +decide [scoreHex, hintScan, buttonHex, strOptTruthy, h7, h0]
  simp [query, hs]

/-! ## Claims -/

/-- C1: for every intent, limit and store content, each element of
`query` has strictly positive score, the list is sorted non-increasing by
score, its length is at most the limit, and the limit defaults to 5. -/
theorem query_ranked (hexes : List Hex) (intent : String) (limit : Nat) :
    (∀ r ∈ query hexes intent limit, 0 < r.score) ∧
    (query hexes intent limit).Pairwise (fun a b => b.score ≤ a.score) ∧
    (query hexes intent limit).length ≤ limit ∧
    query hexes intent = query hexes intent 5 := by
  refine ⟨?_, ?_, ?_, rfl⟩
  · intro r hr
    simp only [query] at hr
    have hr1 := List.mem_of_mem_take hr
    have hr2 := (List.perm_insertionSort scoreRel _).subset hr1
    rcases List.mem_filterMap.mp hr2 with ⟨hex, _, hf⟩
    split_ifs at hf with h
    · cases hf
      exact h
  · exact List.Pairwise.sublist (List.take_sublist _ _)
      (List.sorted_insertionSort scoreRel _)
  · exact List.length_take_le _ _

/-- Witness for C1: the fixture query returns one result of score 7. -/
theorem query_ranked_witness :
    (⟨buttonHex, 7, [("interactive elements")]⟩ : QueryResult) ∈
      query [buttonHex] ("button") 5 ∧
    (0 : ℚ) < 7 := by
  have hm : (⟨buttonHex, 7, [("interactive elements")]⟩ : QueryResult) ∈
      query [buttonHex] ("button") 5 := by
    rw [queryButton_eval]
    exact List.mem_singleton.mpr rfl
  exact ⟨hm, (query_ranked [buttonHex] ("button") 5).1 _ hm⟩

/-- A guard with every clause present. -/
def condW : EdgeCondition :=
  { intent := some ("button"), hasData := some ["a"], lacks := some ["a"],
    matchv := some [("k", Value.vnum 1)], always := none }

/-- A context with an empty intent and no payload. -/
def ctxW : AgentContext :=
  { intent := some (""), payload := .vundefined }

/-- C2: `evaluateCondition` checks only clauses whose relevant input is
present: a set condition intent is skipped (not failed) when the context
intent is empty or absent, and an absent payload makes `hasData`, `lacks`
and `matchv` vacuously true, so a condition combining `hasData` and
`lacks` passes with no payload. -/
theorem evaluateCondition_vacuous (c : EdgeCondition) (x : AgentContext) :
    ((x.intent = none ∨ x.intent = some ("")) →
      evaluateCondition c x = evaluateCondition { c with intent := none } x) ∧
    (x.payload = .vundefined →
      evaluateCondition c x =
        evaluateCondition
          { c with hasData := none, lacks := none, matchv := none } x) ∧
    (x.payload = .vundefined → ∀ hd lk : List String,
      evaluateCondition
        { intent := none, hasData := some hd, lacks := some lk,
          matchv := none, always := none } x = true) := by
  refine ⟨?_, ?_, ?_⟩
  · rintro (h | h) <;> simp [evaluateCondition, h, strOptTruthy]
  · intro h
    simp [evaluateCondition, h, truthy]
  · intro h hd lk
    simp [evaluateCondition, h, truthy, strOptTruthy]

/-- Witness for C2 at a concrete all-clause guard and empty context. -/
theorem evaluateCondition_vacuous_witness :
    evaluateCondition condW ctxW = evaluateCondition { condW with intent := none } ctxW ∧
    evaluateCondition condW ctxW =
      evaluateCondition
        { condW with hasData := none, lacks := none, matchv := none } ctxW ∧
    evaluateCondition
      { intent := none, hasData := some ["a"], lacks := some ["a"],
        matchv := none, always := none } ctxW = true :=
  ⟨(evaluateCondition_vacuous condW ctxW).1 (Or.inr rfl),
   (evaluateCondition_vacuous condW ctxW).2.1 rfl,
   (evaluateCondition_vacuous condW ctxW).2.2 rfl ["a"] ["a"]⟩

/-! ## Unique-key object invariants

A JS object's keys are unique; every object the transform pipeline builds
(starting from the spread copy `{...payload}`) keeps that invariant, and a
unique-key association list is a fixed point of the spread copy. -/

/-- Keys of the association list are pairwise distinct. -/
def keysNodup (fields : List (String × Value)) : Prop :=
  (fields.map Prod.fst).Nodup

theorem hasKey_iff {l : List (String × Value)} {k : String} :
    hasKey l k = true ↔ k ∈ l.map Prod.fst := by
  simp only [hasKey, List.any_eq_true, List.mem_map, beq_iff_eq]

theorem map_fst_setKey_of_hasKey (l : List (String × Value)) (k : String)
    (v : Value) (h : hasKey l k = true) :
    (setKey l k v).map Prod.fst = l.map Prod.fst := by
  simp only [setKey, h, if_true, List.map_map]
  apply List.map_congr_left
  intro kv _
  by_cases hk : kv.1 == k
  · simp only [Function.comp_apply, hk, if_true]
    exact (eq_of_beq hk).symm
  · simp only [Function.comp_apply, hk]
    rfl

theorem keysNodup_setKey {l : List (String × Value)} {k : String} {v : Value}
    (h : keysNodup l) : keysNodup (setKey l k v) := by
  by_cases hk : hasKey l k
  · rw [keysNodup, map_fst_setKey_of_hasKey _ _ _ hk]
    exact h
  · rw [keysNodup, setKey, if_neg hk, List.map_append]
    rw [List.nodup_append]
    refine ⟨h, List.nodup_singleton _, ?_⟩
    intro a ha hb
    simp only [List.map_cons, List.map_nil, List.mem_singleton] at hb
    subst hb
    exact hk (hasKey_iff.mpr ha)

theorem keysNodup_delKey {l : List (String × Value)} {k : String}
    (h : keysNodup l) : keysNodup (delKey l k) := by
  exact List.Nodup.sublist (List.Sublist.map _ (List.filter_sublist _)) h

theorem keysNodup_foldl {β : Type} {f : List (String × Value) → β → List (String × Value)}
    (hf : ∀ acc b, keysNodup acc → keysNodup (f acc b)) :
    ∀ (bs : List β) (acc : List (String × Value)),
      keysNodup acc → keysNodup (List.foldl f acc bs)
  | [], _, h => h
  | b :: bs, acc, h => keysNodup_foldl hf bs (f acc b) (hf acc b h)

theorem keysNodup_nil : keysNodup [] := List.nodup_nil

theorem keysNodup_objAssign {base : List (String × Value)}
    (entries : List (String × Value)) (h : keysNodup base) :
    keysNodup (objAssign base entries) :=
  keysNodup_foldl (fun _ _ ha => keysNodup_setKey ha) entries base h

theorem keysNodup_pickStage (r : List (String × Value))
    (o : Option (List String)) (h : keysNodup r) : keysNodup (pickStage r o) := by
  cases o with
  | none => exact h
  | some keys =>
    exact keysNodup_foldl
      (fun acc key ha => by
        show keysNodup
          (if hasKey r key then setKey acc key (getKeyD r key) else acc)
        split
        · exact keysNodup_setKey ha
        · exact ha)
      keys [] keysNodup_nil

theorem keysNodup_omitStage (r : List (String × Value))
    (o : Option (List String)) (h : keysNodup r) : keysNodup (omitStage r o) := by
  cases o with
  | none => exact h
  | some keys => exact keysNodup_foldl (fun acc key ha => keysNodup_delKey ha) keys r h

theorem keysNodup_renameStage (r : List (String × Value))
    (o : Option (List (String × String))) (h : keysNodup r) :
    keysNodup (renameStage r o) := by
  cases o with
  | none => exact h
  | some pairs =>
    exact keysNodup_foldl
      (fun acc p ha => by
        show keysNodup
          (if hasKey acc p.1 then delKey (setKey acc p.2 (getKeyD acc p.1)) p.1 else acc)
        split
        · exact keysNodup_delKey (keysNodup_setKey ha)
        · exact ha)
      pairs r h

theorem hasKey_append (l1 l2 : List (String × Value)) (k : String) :
    hasKey (l1 ++ l2) k = (hasKey l1 k || hasKey l2 k) := by
  simp [hasKey, List.any_append]

theorem objAssign_of_disjoint :
    ∀ (rest acc : List (String × Value)), keysNodup rest →
      (∀ p ∈ rest, hasKey acc p.1 = false) → objAssign acc rest = acc ++ rest
  | [], acc, _, _ => by simp [objAssign]
  | p :: rest, acc, hnd, hdis => by
    have hp : hasKey acc p.1 = false := hdis p (List.mem_cons_self _ _)
    have hstep : setKey acc p.1 p.2 = acc ++ [p] := by
      rw [setKey, if_neg (by simp [hp])]
    have hnd' : keysNodup rest := by
      rw [keysNodup, List.map_cons, List.nodup_cons] at hnd
      exact hnd.2
    have hni : p.1 ∉ rest.map Prod.fst := by
      rw [keysNodup, List.map_cons, List.nodup_cons] at hnd
      exact hnd.1
    have hdis' : ∀ q ∈ rest, hasKey (acc ++ [p]) q.1 = false := by
      intro q hq
      rw [hasKey_append]
      have h1 : hasKey acc q.1 = false := hdis q (List.mem_cons_of_mem _ hq)
      have h2 : hasKey [p] q.1 = false := by
        simp only [hasKey, List.any_cons, List.any_nil, Bool.or_false]
        rw [beq_eq_false_iff_ne]
        intro he
        exact hni (he ▸ List.mem_map_of_mem Prod.fst hq)
      rw [h1, h2]
      rfl
    calc objAssign acc (p :: rest)
        = objAssign (setKey acc p.1 p.2) rest := rfl
      _ = objAssign (acc ++ [p]) rest := by rw [hstep]
      _ = (acc ++ [p]) ++ rest := objAssign_of_disjoint rest (acc ++ [p]) hnd' hdis'
      _ = acc ++ (p :: rest) := by simp

/-- A unique-key object is unchanged by the spread copy `{...r}`. -/
theorem objAssign_nil_of_keysNodup {r : List (String × Value)}
    (h : keysNodup r) : objAssign [] r = r := by
  rw [objAssign_of_disjoint r [] h (fun p _ => rfl)]
  rfl

/-- C3: `applyTransform` performs exactly the present operations of the
transform, in the fixed order pick, omit, rename, inject (running the
whole transform equals running each operation as its own single-operation
transform, in that order), and on `{a:1,b:2,c:3}` with
`{pick:[a,b], rename:{a:x}, inject:{y:9}}` yields exactly
`{b:2, x:1, y:9}`. -/
theorem applyTransform_fixed_order :
    (∀ (fields : List (String × Value)) (t : EdgeTransform),
      applyTransform (.vobj fields) t =
        applyTransform
          (applyTransform
            (applyTransform (applyTransform (.vobj fields) { pick := t.pick })
              { omitv := t.omitv })
            { rename := t.rename })
          { inject := t.inject }) ∧
    applyTransform (.vobj [("a", .vnum 1), ("b", .vnum 2), ("c", .vnum 3)])
        { pick := some ["a", "b"], rename := some [("a", "x")],
          inject := some [("y", .vnum 9)] } =
      .vobj [("b", .vnum 2), ("x", .vnum 1), ("y", .vnum 9)] := by
  refine ⟨?_, rfl⟩
  intro fields t
  have h0 : keysNodup (objAssign [] fields) := keysNodup_objAssign fields keysNodup_nil
  have h1 : keysNodup (pickStage (objAssign [] fields) t.pick) :=
    keysNodup_pickStage _ _ h0
  have h2 : keysNodup (omitStage (pickStage (objAssign [] fields) t.pick) t.omitv) :=
    keysNodup_omitStage _ _ h1
  have h3 : keysNodup (renameStage
      (omitStage (pickStage (objAssign [] fields) t.pick) t.omitv) t.rename) :=
    keysNodup_renameStage _ _ h2
  have e1 : applyTransform (.vobj fields) { pick := t.pick } =
      .vobj (pickStage (objAssign [] fields) t.pick) := rfl
  have e2 : ∀ (r : List (String × Value)), keysNodup r →
      ∀ o : Option (List String),
        applyTransform (.vobj r) { omitv := o } = .vobj (omitStage r o) := by
    intro r hr o
    show Value.vobj (omitStage (objAssign [] r) o) = Value.vobj (omitStage r o)
    rw [objAssign_nil_of_keysNodup hr]
  have e3 : ∀ (r : List (String × Value)), keysNodup r →
      ∀ o : Option (List (String × String)),
        applyTransform (.vobj r) { rename := o } = .vobj (renameStage r o) := by
    intro r hr o
    show Value.vobj (renameStage (objAssign [] r) o) = Value.vobj (renameStage r o)
    rw [objAssign_nil_of_keysNodup hr]
  have e4 : ∀ (r : List (String × Value)), keysNodup r →
      ∀ o : Option (List (String × Value)),
        applyTransform (.vobj r) { inject := o } = .vobj (injectStage r o) := by
    intro r hr o
    show Value.vobj (injectStage (objAssign [] r) o) = Value.vobj (injectStage r o)
    rw [objAssign_nil_of_keysNodup hr]
  rw [e1, e2 _ h1 _, e3 _ h2 _, e4 _ h3 _]
  rfl

/-- Counterexample to C4 as stated: depositing `null` onto the existing
object `{x:1}` does not replace it wholesale — in JS `typeof null` is
`"object"`, so the merge branch runs and spreading `null` contributes
nothing, leaving `{x:1}`. -/
theorem depositMerge_null_cex :
    depositMerge (.vobj [("x", .vnum 1)]) .vnull = .vobj [("x", .vnum 1)] ∧
    depositMerge (.vobj [("x", .vnum 1)]) .vnull ≠ .vnull :=
  ⟨rfl, fun h => Value.noConfusion h⟩

/-- C4 (amended): deposit concatenates two sequences (existing first);
when existing and incoming both have JS type object (which includes
`null` and sequences) and are not both sequences, the result is the
object-spread merge `{...existing, ...incoming}` (spreading `null` adds
nothing, spreading a sequence adds index keys); otherwise the incoming
value replaces the existing wholesale.  The claim's concrete examples
hold; depositing `null` onto `{x:1}` leaves `{x:1}`, and depositing `[3]`
onto `{x:1}` yields `{x:1, "0":3}`. -/
theorem depositMerge_policy :
    (∀ xs ys : List Value, depositMerge (.varr xs) (.varr ys) = .varr (xs ++ ys)) ∧
    (∀ e i : Value, isObjectType e = true → isObjectType i = true →
      (¬ ∃ xs ys : List Value, e = .varr xs ∧ i = .varr ys) →
      depositMerge e i =
        .vobj (objAssign (objAssign [] (spreadEntries e)) (spreadEntries i))) ∧
    (∀ e i : Value, (isObjectType e = false ∨ isObjectType i = false) →
      depositMerge e i = i) ∧
    depositMerge (.vobj [("x", .vnum 1)]) (.vobj [("y", .vnum 2)]) =
      .vobj [("x", .vnum 1), ("y", .vnum 2)] ∧
    depositMerge (.varr [.vnum 1, .vnum 2]) (.varr [.vnum 3]) =
      .varr [.vnum 1, .vnum 2, .vnum 3] ∧
    depositMerge (.vstr ("str")) (.vobj [("z", .vnum 1)]) = .vobj [("z", .vnum 1)] ∧
    depositMerge (.vobj [("x", .vnum 1)]) .vnull = .vobj [("x", .vnum 1)] ∧
    depositMerge (.vobj [("x", .vnum 1)]) (.varr [.vnum 3]) =
      .vobj [("x", .vnum 1), ("0", .vnum 3)] := by
  refine ⟨fun xs ys => rfl, ?_, ?_, rfl, rfl, rfl, rfl, rfl⟩
  · intro e i he hi hne
    cases e <;> cases i <;> simp_all [isObjectType, depositMerge]
  · intro e i h
    cases e <;> cases i <;> simp_all [isObjectType, depositMerge]

/-- Witness for C4 (amended): the merge branch at `null` over an object,
and the replace branch at a number over `null`. -/
theorem depositMerge_policy_witness :
    depositMerge .vnull (.vobj [("w", .vnum 4)]) =
      .vobj (objAssign (objAssign [] (spreadEntries .vnull))
        (spreadEntries (.vobj [("w", .vnum 4)]))) ∧
    depositMerge (.vnum 5) .vnull = .vnull :=
  ⟨depositMerge_policy.2.1 .vnull (.vobj [("w", .vnum 4)]) rfl rfl
      (by rintro ⟨xs, ys, hx, hy⟩; exact Value.noConfusion hx),
    depositMerge_policy.2.2.1 (.vnum 5) .vnull (Or.inl rfl)⟩

/-- An unconditional edge to an external target, with a transform. -/
def gateEdge : Edge :=
  { id := "to-ext", tov := "external:crm", when := { always := some true },
    transform := some { pick := some ["topAccounts"] }, priority := 5,
    description := "push accounts" }

/-- A payload-guarded edge to an internal node, without a transform. -/
def guardedEdge : Edge :=
  { id := "guarded", tov := "finance", when := { hasData := some ["x"] },
    priority := 1, description := "needs x" }

/-- A source hex carrying both fixture edges. -/
def sourceHex : Hex :=
  { id := "src", name := "Source", type := .data, contents := {},
    entryHints := [], edges := [gateEdge, guardedEdge], tags := [],
    created := "t0", updated := "t0" }

/-- A state holding only the source hex. -/
def baseState : HiveState :=
  { store := [sourceHex], journeys := [], journeyLog := [] }

/-- The all-absent agent context. -/
def emptyCtx : AgentContext := {}

/-- A context carrying a payload that lacks the key `x`. -/
def noXCtx : AgentContext := { payload := .vobj [] }

/-- A context carrying two payload keys, one to be picked. -/
def accountsCtx : AgentContext :=
  { payload := .vobj [("topAccounts", .varr [.vstr ("Acme")]), ("noise", .vnum 1)] }

/-- On the non-throwing fragment, `traverse` reports its three failure
modes as structured results: missing source hex, missing edge, and a
guard that re-evaluates to false (the last carrying the edge's
destination).  See `traverseE_constructor_throws` for the error path the
pure fragment cannot show. -/
theorem traverse_failures (appendOk : Bool) (now : String) (s : HiveState)
    (fromHexId edgeId : String) (context : AgentContext) :
    (findHex s.store fromHexId = none →
      (traverseS appendOk now fromHexId edgeId context s).1 =
        { success := false, destination := "",
          error := some ("Source hex not found") }) ∧
    (∀ hex, findHex s.store fromHexId = some hex →
      hex.edges.find? (fun e => e.id == edgeId) = none →
      (traverseS appendOk now fromHexId edgeId context s).1 =
        { success := false, destination := "", error := some ("Edge not found") }) ∧
    (∀ hex edge, findHex s.store fromHexId = some hex →
      hex.edges.find? (fun e => e.id == edgeId) = some edge →
      evaluateCondition edge.when context = false →
      (traverseS appendOk now fromHexId edgeId context s).1 =
        { success := false, destination := edge.tov,
          error := some ("Edge condition not met") }) := by
  refine ⟨?_, ?_, ?_⟩
  · intro h
    simp [traverseS, h]
  · intro hex h1 h2
    simp [traverseS, h1, h2]
  · intro hex edge h1 h2 h3
    simp [traverseS, h1, h2, h3]

/-- The three structured failure modes on the fixture store. -/
theorem traverse_failures_witness :
    (traverseS true ("t1") ("missing") ("to-ext") emptyCtx baseState).1 =
      { success := false, destination := "",
        error := some ("Source hex not found") } ∧
    (traverseS true ("t1") ("src") ("nope") emptyCtx baseState).1 =
      { success := false, destination := "", error := some ("Edge not found") } ∧
    (traverseS true ("t1") ("src") ("guarded") noXCtx baseState).1 =
      { success := false, destination := "finance",
        error := some ("Edge condition not met") } :=
  ⟨(traverse_failures true ("t1") baseState ("missing") ("to-ext") emptyCtx).1 rfl,
   (traverse_failures true ("t1") baseState ("src") ("nope") emptyCtx).2.1
      sourceHex rfl rfl,
   (traverse_failures true ("t1") baseState ("src") ("guarded") noXCtx).2.2
      sourceHex guardedEdge rfl rfl (by decide)⟩

/-- An edge guarded by intent overlap, the shape the repository's own
data uses (`when: { intent: ... }`). -/
def intentEdge : Edge :=
  { id := "by-intent", tov := "finance",
    when := { intent := some ("revenue context") },
    priority := 1, description := "needs revenue intent" }

/-- A source hex whose only edge is intent-guarded. -/
def intentHex : Hex :=
  { id := "intent-src", name := "Intent Source", type := .data, contents := {},
    entryHints := [], edges := [intentEdge], tags := [],
    created := "t0", updated := "t0" }

/-- A state holding only the intent-guarded hex. -/
def intentState : HiveState :=
  { store := [intentHex], journeys := [], journeyLog := [] }

/-- A context whose intent tokenizes to the single word `constructor`. -/
def ctorCtx : AgentContext := { intent := some ("constructor") }

/-- C5 (code bug): the never-throws contract is broken.  At the failing
input — an intent-guarded edge and a context intent whose token is
`constructor` — the property read `CONCEPT_MAP["constructor"]` finds the
inherited, truthy `Object.prototype.constructor`, and iterating it
raises a TypeError out of `traverse` instead of a structured result.
The lookups before the guard still return structured results (second
conjunct), and on inputs whose expansion cannot throw the exception-aware
embedding returns exactly what the pure one does (third conjunct). -/
theorem traverseE_constructor_throws :
    traverseE true ("t1") ("intent-src") ("by-intent") ctorCtx intentState =
      .error .typeError ∧
    traverseE true ("t1") ("missing") ("by-intent") ctorCtx intentState =
      .ok ({ success := false, destination := "",
             error := some ("Source hex not found") }, intentState) ∧
    traverseE true ("t1") ("src") ("guarded") noXCtx baseState =
      .ok (traverseS true ("t1") ("src") ("guarded") noXCtx baseState) :=
  ⟨rfl, rfl, rfl⟩

/-- C6: when the source hex and edge are found and the guard passes,
`traverse` succeeds with the edge's destination, the payload transformed
exactly when the edge declares a transform, and `external` true exactly
when the destination starts with `external:`. -/
theorem traverse_success (appendOk : Bool) (now : String) (s : HiveState)
    (fromHexId edgeId : String) (context : AgentContext) (hex : Hex) (edge : Edge) :
    findHex s.store fromHexId = some hex →
    hex.edges.find? (fun e => e.id == edgeId) = some edge →
    evaluateCondition edge.when context = true →
    (traverseS appendOk now fromHexId edgeId context s).1 =
      { success := true, destination := edge.tov,
        payload :=
          match edge.transform with
          | some t => applyTransform context.payload t
          | none => context.payload,
        external := some (strStartsWith edge.tov ("external:")) } := by
  intro h1 h2 h3
  simp [traverseS, h1, h2, h3]

/-- Witness for C6: traversing the external edge picks the payload down
to `topAccounts` and flags the destination as external. -/
theorem traverse_success_witness :
    (traverseS true ("t1") ("src") ("to-ext") accountsCtx baseState).1 =
      { success := true, destination := "external:crm",
        payload := .vobj [("topAccounts", .varr [.vstr ("Acme")])],
        external := some true } := by
  have h := traverse_success true ("t1") baseState ("src") ("to-ext") accountsCtx
    sourceHex gateEdge rfl rfl rfl
  rw [h]
  rfl

/-- C8: a failure of the durable journey-log append (`appendOk = false`,
the source's swallowed catch) neither raises past `enter`, `traverse` or
`deposit` (these are total functions of the flag) nor changes the
returned result, which is identical whether the append succeeds or not. -/
theorem logging_failure_invisible (appendOk : Bool) (now : String) (s : HiveState)
    (hexId : String) (octx : Option AgentContext)
    (fromHexId edgeId : String) (context : AgentContext)
    (dHexId : String) (data : Value) (dctx : Option AgentContext) :
    (enterS appendOk now hexId octx s).1 = (enterS true now hexId octx s).1 ∧
    (traverseS appendOk now fromHexId edgeId context s).1 =
      (traverseS true now fromHexId edgeId context s).1 ∧
    (depositS appendOk now dHexId data dctx s).1 =
      (depositS true now dHexId data dctx s).1 := by
  refine ⟨?_, ?_, ?_⟩
  · cases h : findHex s.store hexId <;> cases octx <;> simp [enterS, h]
  · cases h : findHex s.store fromHexId with
    | none => simp [traverseS, h]
    | some hex =>
      cases h2 : hex.edges.find? (fun e => e.id == edgeId) with
      | none => simp [traverseS, h, h2]
      | some edge =>
        by_cases h3 : evaluateCondition edge.when context <;>
          simp [traverseS, h, h2, h3]
  · cases h : findHex s.store dHexId <;> cases dctx <;> simp [depositS, h]

/-- C10: failure atomicity — a `traverse` that reports `success:false`
and a `deposit` that returns `false` (absent node) leave the whole
observable state (store, in-memory journeys, durable log) unchanged. -/
theorem failure_atomic (appendOk : Bool) (now : String) (s : HiveState)
    (fromHexId edgeId : String) (context : AgentContext)
    (dHexId : String) (data : Value) (dctx : Option AgentContext) :
    ((traverseS appendOk now fromHexId edgeId context s).1.success = false →
      (traverseS appendOk now fromHexId edgeId context s).2 = s) ∧
    ((depositS appendOk now dHexId data dctx s).1 = false →
      (depositS appendOk now dHexId data dctx s).2 = s) := by
  constructor
  · intro hf
    cases h : findHex s.store fromHexId with
    | none => simp [traverseS, h]
    | some hex =>
      cases h2 : hex.edges.find? (fun e => e.id == edgeId) with
      | none => simp [traverseS, h, h2]
      | some edge =>
        by_cases h3 : evaluateCondition edge.when context
        · simp [traverseS, h, h2, h3] at hf
        · simp [traverseS, h, h2, h3]
  · intro hf
    cases h : findHex s.store dHexId with
    | none => simp [depositS, h]
    | some hex =>
      cases dctx <;> simp [depositS, h] at hf

/-- Witness for C10: failing calls on the fixture state leave it intact. -/
theorem failure_atomic_witness :
    (traverseS true ("t1") ("missing") ("to-ext") emptyCtx baseState).2 = baseState ∧
    (depositS true ("t1") ("missing") .vnull none baseState).2 = baseState :=
  ⟨(failure_atomic true ("t1") baseState ("missing") ("to-ext") emptyCtx
      ("missing") .vnull none).1 rfl,
   (failure_atomic true ("t1") baseState ("missing") ("to-ext") emptyCtx
      ("missing") .vnull none).2 rfl⟩

/-- A sample journey-log line. -/
def sampleEntry : LogEntry :=
  ⟨{ hexId := "h1", action := .enter, timestamp := "t1" }, "anonymous"⟩

/-- Counterexample to C9 as stated: `getJourneyLog` with limit 0 on a
one-entry log returns the whole log, not the most recent 0 entries —
`steps.slice(-0)` is `steps.slice(0)`. -/
theorem getJourneyLog_zero_cex :
    getJourneyLog (some [sampleEntry]) 0 = [sampleEntry] ∧
    [sampleEntry] ≠ ([] : List LogEntry) :=
  ⟨rfl, fun h => List.noConfusion h⟩

/-- C9 (amended): for every positive limit the result is the suffix of
the log of length `min limit length` — the most recent entries in order,
all of them when the log is shorter; with limit 0 the whole log is
returned (`slice(-0)` is `slice(0)`); a missing or empty log yields `[]`;
the limit defaults to 100. -/
theorem getJourneyLog_recent (entries : List LogEntry) (limit : Nat) :
    (0 < limit →
      (getJourneyLog (some entries) limit).length = min limit entries.length ∧
      List.IsSuffix (getJourneyLog (some entries) limit) entries ∧
      (entries.length ≤ limit → getJourneyLog (some entries) limit = entries)) ∧
    getJourneyLog (some entries) 0 = entries ∧
    getJourneyLog none limit = [] ∧
    getJourneyLog (some []) limit = [] ∧
    getJourneyLog (some entries) = getJourneyLog (some entries) 100 := by
  refine ⟨?_, ?_, rfl, ?_, rfl⟩
  · intro hl
    have hne : (limit == 0) = false := by
      simp only [beq_eq_false_iff_ne, ne_eq]
      omega
    refine ⟨?_, ?_, ?_⟩
    · simp only [getJourneyLog, hne, if_false, Bool.false_eq_true, List.length_drop]
      omega
    · simp only [getJourneyLog, hne, if_false, Bool.false_eq_true]
      exact List.drop_suffix _ _
    · intro hle
      simp only [getJourneyLog, hne, if_false, Bool.false_eq_true,
        Nat.sub_eq_zero_of_le hle, List.drop_zero]
  · simp [getJourneyLog]
  · cases limit <;> simp [getJourneyLog]

/-- Witness for C9 (amended): limit 1 on a two-entry log keeps one entry;
limit 2 on a one-entry log keeps the whole log. -/
theorem getJourneyLog_recent_witness :
    (getJourneyLog (some [sampleEntry, sampleEntry]) 1).length = min 1 2 ∧
    getJourneyLog (some [sampleEntry]) 2 = [sampleEntry] :=
  ⟨((getJourneyLog_recent [sampleEntry, sampleEntry] 1).1 (by decide)).1,
   ((getJourneyLog_recent [sampleEntry] 2).1 (by decide)).2.2 (by decide)⟩

/-! ## Synonym expansion membership -/

theorem mem_addWord {acc : List String} {w x : String} :
    x ∈ addWord acc w ↔ x ∈ acc ∨ x = w := by
  by_cases h : acc.contains w = true
  · have hw : w ∈ acc := List.elem_iff.mp h
    rw [addWord, if_pos h]
    constructor
    · exact Or.inl
    · rintro (hx | rfl)
      · exact hx
      · exact hw
  · rw [addWord, if_neg h]
    simp [List.mem_append]

theorem mem_addWords (ws : List String) :
    ∀ (acc : List String) (x : String),
      x ∈ addWords acc ws ↔ x ∈ acc ∨ x ∈ ws := by
  induction ws with
  | nil => simp [addWords]
  | cons w ws ih =>
    intro acc x
    show x ∈ addWords (addWord acc w) ws ↔ _
    rw [ih, mem_addWord]
    simp [or_assoc]

theorem mem_scanFold (word x : String) :
    ∀ (entries : List (String × List String)) (acc : List String),
      (x ∈ entries.foldl
          (fun a kv =>
            if kv.2.contains word then addWords (addWord a kv.1) kv.2 else a)
          acc) ↔
        (x ∈ acc ∨ ∃ kv, kv ∈ entries ∧ word ∈ kv.2 ∧ (x = kv.1 ∨ x ∈ kv.2))
  | [], acc => by simp
  | kv :: rest, acc => by
    rw [List.foldl_cons, mem_scanFold word x rest]
    by_cases hc : kv.2.contains word = true
    · have hw : word ∈ kv.2 := List.elem_iff.mp hc
      rw [if_pos hc, mem_addWords, mem_addWord]
      constructor
      · rintro (((hx | rfl) | hx) | ⟨kv', hm, hw', hx⟩)
        · exact Or.inl hx
        · exact Or.inr ⟨kv, List.mem_cons_self _ _, hw, Or.inl rfl⟩
        · exact Or.inr ⟨kv, List.mem_cons_self _ _, hw, Or.inr hx⟩
        · exact Or.inr ⟨kv', List.mem_cons_of_mem _ hm, hw', hx⟩
      · rintro (hx | ⟨kv', hm, hw', hx⟩)
        · exact Or.inl (Or.inl (Or.inl hx))
        · rcases List.mem_cons.mp hm with rfl | hm'
          · rcases hx with rfl | hx
            · exact Or.inl (Or.inl (Or.inr rfl))
            · exact Or.inl (Or.inr hx)
          · exact Or.inr ⟨kv', hm', hw', hx⟩
    · have hw : word ∉ kv.2 := fun hmem => hc (List.elem_iff.mpr hmem)
      rw [if_neg hc]
      constructor
      · rintro (hx | ⟨kv', hm, hw', hx⟩)
        · exact Or.inl hx
        · exact Or.inr ⟨kv', List.mem_cons_of_mem _ hm, hw', hx⟩
      · rintro (hx | ⟨kv', hm, hw', hx⟩)
        · exact Or.inl hx
        · rcases List.mem_cons.mp hm with rfl | hm'
          · exact absurd hw' hw
          · exact Or.inr ⟨kv', hm', hw', hx⟩

theorem mem_expandStep {acc : List String} {word x : String} :
    x ∈ expandStep acc word ↔
      x ∈ acc ∨ (∃ syns, lookupConcept word = some syns ∧ x ∈ syns) ∨
        ∃ kv, kv ∈ CONCEPT_MAP ∧ word ∈ kv.2 ∧ (x = kv.1 ∨ x ∈ kv.2) := by
  unfold expandStep
  rw [mem_scanFold word x CONCEPT_MAP]
  cases hl : lookupConcept word with
  | none => simp
  | some syns => simp [mem_addWords, or_assoc]

theorem mem_expand_single {A B : String} :
    B ∈ expandWithSynonyms [A] ↔
      B = A ∨ (∃ syns, lookupConcept A = some syns ∧ B ∈ syns) ∨
        ∃ kv, kv ∈ CONCEPT_MAP ∧ A ∈ kv.2 ∧ (B = kv.1 ∨ B ∈ kv.2) := by
  show B ∈ expandStep (addWord [] A) A ↔ _
  rw [mem_expandStep]
  simp [mem_addWord]

theorem lookupConcept_mem {k : String} {syns : List String}
    (h : lookupConcept k = some syns) : (k, syns) ∈ CONCEPT_MAP := by
  unfold lookupConcept at h
  cases hf : CONCEPT_MAP.find? (fun kv => kv.1 == k) with
  | none => rw [hf] at h; simp at h
  | some kv =>
    rw [hf] at h
    have hmem := List.mem_of_find?_eq_some hf
    have hp := List.find?_some hf
    rcases kv with ⟨k', v'⟩
    have h1 : k' = k := by simpa using hp
    have h2 : v' = syns := by simpa using h
    subst h1
    subst h2
    exact hmem

theorem conceptKeysNodup : (CONCEPT_MAP.map Prod.fst).Nodup := by decide

theorem find?_key_eq {l : List (String × List String)}
    (hnd : (l.map Prod.fst).Nodup) {k : String} {v : List String}
    (hm : (k, v) ∈ l) : l.find? (fun kv => kv.1 == k) = some (k, v) := by
  induction l with
  | nil => cases hm
  | cons a rest ih =>
    rw [List.map_cons, List.nodup_cons] at hnd
    rcases List.mem_cons.mp hm with rfl | hm'
    · exact List.find?_cons_of_pos _ (by simp)
    · by_cases hak : (a.1 == k) = true
      · exfalso
        have ha : a.1 = k := eq_of_beq hak
        exact hnd.1 (ha ▸ (List.mem_map_of_mem Prod.fst hm' : k ∈ rest.map Prod.fst))
      · rw [List.find?_cons_of_neg _ (by simp_all)]
        exact ih hnd.2 hm'

theorem lookupConcept_of_mem {k : String} {syns : List String}
    (hm : (k, syns) ∈ CONCEPT_MAP) : lookupConcept k = some syns := by
  unfold lookupConcept
  rw [find?_key_eq conceptKeysNodup hm]
  rfl

/-- C7: synonym expansion is symmetric — whenever the expansion of the
singleton `{A}` contains `B`, the expansion of `{B}` contains `A`.
Concretely, the expansion of `button` contains `interactive`, an intent
of `button` gives a hint containing the word `interactive` a nonzero
overlap, and the fixture query reports that hint in `matchedHints`. -/
theorem synonym_symmetric :
    (∀ A B : String, B ∈ expandWithSynonyms [A] → A ∈ expandWithSynonyms [B]) ∧
    "interactive" ∈ expandWithSynonyms (tokenize ("button")) ∧
    0 < wordOverlap (expandWithSynonyms (tokenize ("button")))
        (expandWithSynonyms (tokenize ("interactive elements"))) ∧
    (query [buttonHex] ("button") 5).map (fun r => r.matchedHints) =
      [["interactive elements"]] := by
  refine ⟨?_, by decide, by decide, by rw [queryButton_eval]; rfl⟩
  intro A B hB
  rw [mem_expand_single] at hB ⊢
  rcases hB with rfl | ⟨syns, hl, hBs⟩ | ⟨kv, hmem, hA, hB2⟩
  · exact Or.inl rfl
  · exact Or.inr (Or.inr ⟨(A, syns), lookupConcept_mem hl, hBs, Or.inl rfl⟩)
  · rcases hB2 with rfl | hBs
    · refine Or.inr (Or.inl ⟨kv.2, lookupConcept_of_mem ?_, hA⟩)
      rw [Prod.mk.eta]
      exact hmem
    · exact Or.inr (Or.inr ⟨kv, hmem, hBs, Or.inr hA⟩)

/-- Witness for C7: `ui` is in the expansion of `click` (both synonyms
of `button`), so the theorem puts `click` in the expansion of `ui`. -/
theorem synonym_symmetric_witness :
    ("click" : String) ∈ expandWithSynonyms ["ui"] :=
  synonym_symmetric.1 ("click") ("ui") (by decide)

end Hive
